import Mathlib

/-!
# Verification of spec claims for the aptos-core snapshot

This file shallowly embeds the parts of the repository that the claims
C1..C10 talk about, and proves (or refutes) each claim over the embedding.

* `Jwk`: the `JWK` / `JWKMoveStruct` conversions of
  `types/src/jwks/jwk/mod.rs` (C8).
* `DagHandler`: `NetworkHandler::process_rpc` of
  `consensus/src/dag/dag_handler.rs` (C9).
* `TestCaseLoad`: `TestCase::load` of
  `ecosystem/indexer-grpc/indexer-grpc-integration-test-transaction-generator/src/test_case.rs` (C10).
* `BlockSTM` and friends: the Block-STM scheduler / versioned store /
  transaction-index-provider core.  Only the trait declarations
  (`aptos-move/block-executor/src/txn_provider/mod.rs`) are in the source
  snapshot; the implementations are modelled from the spec (C1..C7).
-/

namespace Jwk

/-- Modelled from the spec: the BCS serializer used by `move_any::Any::pack`
(`types/src/move_any.rs` and the `bcs` crate are not in the source snapshot).
ULEB128 encoding of a length. -/
def uleb128 (n : Nat) : List Nat :=
  if h : n < 128 then [n] else (n % 128 + 128) :: uleb128 (n / 128)
termination_by n
decreasing_by
  exact Nat.div_lt_self (by omega) (by omega)

/-- Modelled from the spec: the matching ULEB128 reader (BCS deserializer side,
not in the source snapshot).  Returns the decoded value and the remaining
bytes. -/
def readUleb : List Nat → Option (Nat × List Nat)
  | [] => none
  | b :: bs =>
    if b < 128 then some (b, bs)
    else
      match readUleb bs with
      | some (m, rest) => some (b - 128 + 128 * m, rest)
      | none => none

theorem readUleb_uleb128 (n : Nat) (rest : List Nat) :
    readUleb (uleb128 n ++ rest) = some (n, rest) := by
  induction n using Nat.strong_induction_on with
  | _ n ih =>
    rw [uleb128]
    by_cases h : n < 128
    · simp [h, readUleb]
    · have hlt : n / 128 < n := Nat.div_lt_self (by omega) (by omega)
      have hmod := Nat.mod_add_div n 128
      simp only [h, dite_false, List.cons_append, readUleb,
        ih (n / 128) hlt]
      have hge : ¬ (n % 128 + 128 < 128) := by omega
      simp only [hge, if_false]
      congr 1
      ext
      · omega
      · rfl

/-- Modelled from the spec: BCS serialization of a byte string (length prefix
followed by the raw bytes); `bcs` crate, not in the source snapshot. -/
def serBytes (s : List Nat) : List Nat := uleb128 s.length ++ s

/-- Modelled from the spec: BCS deserialization of a byte string, not in the
source snapshot. -/
def readBytes (l : List Nat) : Option (List Nat × List Nat) :=
  match readUleb l with
  | some (n, rest) => if n ≤ rest.length then some (rest.take n, rest.drop n) else none
  | none => none

theorem readBytes_serBytes (s rest : List Nat) :
    readBytes (serBytes s ++ rest) = some (s, rest) := by
  simp [readBytes, serBytes, List.append_assoc, readUleb_uleb128,
    List.take_left, List.drop_left]

theorem readBytes_serBytes_nil (s : List Nat) :
    readBytes (serBytes s) = some (s, []) := by
  have h := readBytes_serBytes s []
  simpa using h

/-- Modelled from the spec: the `RSA_JWK` struct of `types/src/jwks/rsa.rs`
(not in the source snapshot); its five string fields are modelled as UTF-8
byte lists. -/
structure RSA_JWK where
  kid : List Nat
  kty : List Nat
  alg : List Nat
  e : List Nat
  n : List Nat
deriving DecidableEq

/-- Modelled from the spec: BCS serialization of `RSA_JWK` (derived serde
`Serialize`, fields in declaration order). -/
def RSA_JWK.toBcs (x : RSA_JWK) : List Nat :=
  serBytes x.kid ++ serBytes x.kty ++ serBytes x.alg ++ serBytes x.e ++ serBytes x.n

/-- Modelled from the spec: BCS deserialization of `RSA_JWK`
(`bcs::from_bytes`, which fails unless the input is consumed exactly). -/
def RSA_JWK.fromBcs (l : List Nat) : Option RSA_JWK := do
  let (kid, l) ← readBytes l
  let (kty, l) ← readBytes l
  let (alg, l) ← readBytes l
  let (e, l) ← readBytes l
  let (n, l) ← readBytes l
  if l.isEmpty then pure ⟨kid, kty, alg, e, n⟩ else none

theorem RSA_JWK.rsa_fromBcs_toBcs (x : RSA_JWK) : RSA_JWK.fromBcs x.toBcs = some x := by
  simp [RSA_JWK.fromBcs, RSA_JWK.toBcs, readBytes_serBytes, readBytes_serBytes_nil]

/-- Modelled from the spec: the `UnsupportedJWK` struct of
`types/src/jwks/unsupported.rs` (not in the source snapshot); its `id` and
`payload` fields are byte vectors. -/
structure UnsupportedJWK where
  id : List Nat
  payload : List Nat
deriving DecidableEq

/-- Modelled from the spec: BCS serialization of `UnsupportedJWK`. -/
def UnsupportedJWK.toBcs (x : UnsupportedJWK) : List Nat :=
  serBytes x.id ++ serBytes x.payload

/-- Modelled from the spec: BCS deserialization of `UnsupportedJWK`. -/
def UnsupportedJWK.fromBcs (l : List Nat) : Option UnsupportedJWK := do
  let (i, l) ← readBytes l
  let (p, l) ← readBytes l
  if l.isEmpty then pure ⟨i, p⟩ else none

theorem UnsupportedJWK.unsupported_fromBcs_toBcs (x : UnsupportedJWK) :
    UnsupportedJWK.fromBcs x.toBcs = some x := by
  simp [UnsupportedJWK.fromBcs, UnsupportedJWK.toBcs, readBytes_serBytes,
    readBytes_serBytes_nil]

/-- Modelled from the spec: `move_any::Any` (`types/src/move_any.rs`, not in
the source snapshot): a type-name tag plus a BCS-serialized payload. -/
structure MoveAny where
  type_name : String
  data : List Nat
deriving DecidableEq

/-- Modelled from the spec: `RSA_JWK::MOVE_TYPE_NAME`. -/
def RSA_JWK.MOVE_TYPE_NAME : String := "0x1::jwks::RSA_JWK"

/-- Modelled from the spec: `UnsupportedJWK::MOVE_TYPE_NAME`. -/
def UnsupportedJWK.MOVE_TYPE_NAME : String := "0x1::jwks::UnsupportedJWK"

/-- Modelled from the spec: `AsMoveAny::as_move_any` for `RSA_JWK`
(`Any::pack(MOVE_TYPE_NAME, self)`). -/
def RSA_JWK.as_move_any (x : RSA_JWK) : MoveAny :=
  ⟨RSA_JWK.MOVE_TYPE_NAME, x.toBcs⟩

/-- Modelled from the spec: `AsMoveAny::as_move_any` for `UnsupportedJWK`. -/
def UnsupportedJWK.as_move_any (x : UnsupportedJWK) : MoveAny :=
  ⟨UnsupportedJWK.MOVE_TYPE_NAME, x.toBcs⟩

/-- Modelled from the spec: `Any::unpack::<RSA_JWK>` — checks the type-name
tag and BCS-deserializes the payload. -/
def MoveAny.unpackRSA (tag : String) (a : MoveAny) : Option RSA_JWK :=
  if a.type_name = tag then RSA_JWK.fromBcs a.data else none

/-- Modelled from the spec: `Any::unpack::<UnsupportedJWK>`. -/
def MoveAny.unpackUnsupported (tag : String) (a : MoveAny) : Option UnsupportedJWK :=
  if a.type_name = tag then UnsupportedJWK.fromBcs a.data else none

/-- The rust enum `JWK` of `types/src/jwks/jwk/mod.rs`. -/
inductive JWK
  | RSA (x : RSA_JWK)
  | Unsupported (x : UnsupportedJWK)
deriving DecidableEq

/-- The struct `JWKMoveStruct` of `types/src/jwks/jwk/mod.rs`. -/
structure JWKMoveStruct where
  variant : MoveAny
deriving DecidableEq

/-- `impl From<JWK> for JWKMoveStruct` of `types/src/jwks/jwk/mod.rs`. -/
def JWKMoveStruct.fromJWK : JWK → JWKMoveStruct
  | .RSA v => ⟨v.as_move_any⟩
  | .Unsupported v => ⟨v.as_move_any⟩

/-- Result of a rust `TryFrom` whose body may also `unwrap()` (panic). -/
inductive TfResult (α : Type)
  | ok (a : α)
  | error (msg : String)
  | panicked
deriving DecidableEq

/-- `impl TryFrom<JWKMoveStruct> for JWK` of `types/src/jwks/jwk/mod.rs`:
match on the type-name tag, `unpack(..).unwrap()` in the two known arms,
`Err` otherwise. -/
def JWK.tryFromMove (v : JWKMoveStruct) : TfResult JWK :=
  if v.variant.type_name = RSA_JWK.MOVE_TYPE_NAME then
    match MoveAny.unpackRSA RSA_JWK.MOVE_TYPE_NAME v.variant with
    | some x => .ok (.RSA x)
    | none => .panicked
  else if v.variant.type_name = UnsupportedJWK.MOVE_TYPE_NAME then
    match MoveAny.unpackUnsupported UnsupportedJWK.MOVE_TYPE_NAME v.variant with
    | some x => .ok (.Unsupported x)
    | none => .panicked
  else .error "convertion from jwk move struct to jwk failed with unknown variant"

/-- C8: for every JWK value `j` (RSA or Unsupported variant), converting via
`From<JWK> for JWKMoveStruct` and back via `TryFrom<JWKMoveStruct> for JWK`
succeeds and returns a value equal to `j`. -/
theorem jwk_move_struct_roundtrip (j : JWK) :
    JWK.tryFromMove (JWKMoveStruct.fromJWK j) = .ok j := by
  cases j with
  | RSA x =>
      simp [JWK.tryFromMove, JWKMoveStruct.fromJWK, RSA_JWK.as_move_any,
        MoveAny.unpackRSA, RSA_JWK.rsa_fromBcs_toBcs]
  | Unsupported x =>
      have hne : UnsupportedJWK.MOVE_TYPE_NAME ≠ RSA_JWK.MOVE_TYPE_NAME := by
        decide
      simp [JWK.tryFromMove, JWKMoveStruct.fromJWK, UnsupportedJWK.as_move_any,
        MoveAny.unpackUnsupported, UnsupportedJWK.unsupported_fromBcs_toBcs, hne]

end Jwk

namespace DagHandler

/-- The DAG message handlers that `NetworkHandler::process_rpc`
(`consensus/src/dag/dag_handler.rs`) can dispatch to. -/
inductive Handler
  | nodeReceiver
  | dagDriver
  | fetchReceiver
deriving DecidableEq

/-- The `DAGMessage` enum (`consensus/src/dag/types.rs`, not in the source
snapshot) restricted to what `process_rpc` distinguishes: the three handled
variants, each carrying its author, and an opaque `other` bucket for the
remaining variants. -/
inductive DAGMessage (A N C F O : Type)
  | nodeMsg (author : A) (node : N)
  | certifiedNodeMsg (author : A) (node : C)
  | fetchRequest (author : A) (req : F)
  | other (msg : O)

/-- Modelled from the spec: `DAGMessage::author()`
(`consensus/src/dag/types.rs`, not in the source snapshot) — `Ok(author)` for
the node/certified-node/fetch-request variants, `Err` otherwise. -/
def DAGMessage.author {A N C F O : Type} : DAGMessage A N C F O → Except String A
  | .nodeMsg a _ => .ok a
  | .certifiedNodeMsg a _ => .ok a
  | .fetchRequest a _ => .ok a
  | .other _ => .error "no author"

/-- The fields of `IncomingDAGRequest` that `process_rpc` reads: the raw
request and the network-level sender. -/
structure IncomingDAGRequest (R A : Type) where
  req : R
  sender : A

/-- The collaborators of `NetworkHandler` used by `process_rpc`:
`TryInto<DAGMessage>` decoding, per-variant signature verification and handler
processing, response serialization, and the response channel. -/
structure RpcEnv (R A N C F O Rsp : Type) where
  tryInto : R → Except String (DAGMessage A N C F O)
  verifyNode : N → Except String Unit
  processNode : N → Except String Rsp
  verifyCertified : C → Except String Unit
  processCertified : C → Except String Rsp
  verifyFetch : F → Except String Unit
  processFetch : F → Except String Rsp
  toBytes : Rsp → Except String (List Nat)
  sendOk : Bool

/-- `NetworkHandler::process_rpc` (`consensus/src/dag/dag_handler.rs`):
decode the request, extract the author, bail if it differs from the network
sender, otherwise verify-and-process with the matching handler and send the
(possibly error) response back.  The second component records which handlers
were actually invoked. -/
def process_rpc {R A N C F O Rsp : Type} [DecidableEq A]
    (env : RpcEnv R A N C F O Rsp) (rpc : IncomingDAGRequest R A) :
    Except String Unit × List Handler :=
  match env.tryInto rpc.req with
  | .error e => (.error e, [])
  | .ok dag_message =>
    match dag_message.author with
    | .error _ => (.error "unexpected rpc message", [])
    | .ok author =>
      if author = rpc.sender then
        let (response, dispatched) : Except String Rsp × List Handler :=
          match dag_message with
          | .nodeMsg _ node =>
            match env.verifyNode node with
            | .error e => (.error e, [])
            | .ok _ => (env.processNode node, [.nodeReceiver])
          | .certifiedNodeMsg _ node =>
            match env.verifyCertified node with
            | .error e => (.error e, [])
            | .ok _ => (env.processCertified node, [.dagDriver])
          | .fetchRequest _ req =>
            match env.verifyFetch req with
            | .error e => (.error e, [])
            | .ok _ => (env.processFetch req, [.fetchReceiver])
          | .other _ => (.error "unknown rpc message", [])
        let _serialized := response.bind env.toBytes
        (if env.sendOk then .ok () else .error "unable to respond to rpc",
          dispatched)
      else (.error "message author and network author mismatch", [])

/-- C9: `process_rpc` returns an error without dispatching to any message
handler whenever the decoded DAG message's author differs from the sender on
the incoming request, and a message is dispatched to a handler only if the
author equals the network sender. -/
theorem process_rpc_author_check {R A N C F O Rsp : Type} [DecidableEq A]
    (env : RpcEnv R A N C F O Rsp) (rpc : IncomingDAGRequest R A) :
    ((process_rpc env rpc).2 ≠ [] →
      ∃ m, env.tryInto rpc.req = .ok m ∧ m.author = .ok rpc.sender) ∧
    (∀ (m : DAGMessage A N C F O) (a : A),
      env.tryInto rpc.req = .ok m → m.author = .ok a → a ≠ rpc.sender →
      process_rpc env rpc =
        (.error "message author and network author mismatch", [])) := by
  constructor
  · intro hdisp
    cases htry : env.tryInto rpc.req with
    | error e => simp [process_rpc, htry] at hdisp
    | ok m =>
      cases hauth : m.author with
      | error e => simp [process_rpc, htry, hauth] at hdisp
      | ok a =>
        by_cases hs : a = rpc.sender
        · exact ⟨m, rfl, by rw [hauth, hs]⟩
        · simp [process_rpc, htry, hauth, hs] at hdisp
  · intro m a htry hauth hne
    simp [process_rpc, htry, hauth, hne]

/-- A concrete environment exercising the author-mismatch path of
`process_rpc`: everything is `Nat`, the request decodes to a node message
authored by `1`, and the network sender is `2`. -/
def mismatchEnv : RpcEnv Nat Nat Nat Nat Nat Nat Nat where
  tryInto := fun _ => .ok (.nodeMsg 1 0)
  verifyNode := fun _ => .ok ()
  processNode := fun _ => .ok 0
  verifyCertified := fun _ => .ok ()
  processCertified := fun _ => .ok 0
  verifyFetch := fun _ => .ok ()
  processFetch := fun _ => .ok 0
  toBytes := fun _ => .ok []
  sendOk := true

theorem process_rpc_author_check_witness :
    process_rpc mismatchEnv ⟨0, 2⟩ =
      (.error "message author and network author mismatch", []) :=
  (process_rpc_author_check mismatchEnv ⟨0, 2⟩).2 (.nodeMsg 1 0) 1 rfl rfl
    (by decide)

end DagHandler

namespace TestCaseLoad

/-- A directory entry as observed by `TestCase::load`
(`.../src/test_case.rs`): the file name (as UTF-8 bytes), whether the path is
a regular file / a directory, and its extension (as UTF-8 bytes), if any. -/
structure DirEntry where
  name : List Nat
  isFile : Bool
  isDir : Bool
  ext : Option (List Nat)
deriving DecidableEq

/-- The `MoveSource` enum of `test_case.rs`; the payload is the entry name. -/
inductive MoveSource
  | SimpleMoveFile (path : List Nat)
  | MoveDirectory (path : List Nat)
deriving DecidableEq, Inhabited

/-- The `TestCase` struct of `test_case.rs`. -/
structure TestCase where
  test_case_folder : List Nat
  move_sources : List MoveSource
deriving DecidableEq

/-- Rust `str::split(sep)` on a byte string: split at every occurrence of the
separator byte (`'_'` = 95 in `load`); an empty input yields one empty
segment, like in Rust. -/
def splitOnByte (sep : Nat) : List Nat → List (List Nat)
  | [] => [[]]
  | b :: bs =>
    match splitOnByte sep bs with
    | [] => [[]]
    | cur :: rest => if b = sep then [] :: cur :: rest else (b :: cur) :: rest

/-- Rust `str::parse::<u32>()`: optional leading `'+'` (43), then at least one
ASCII digit and nothing else, value below `2^32`. -/
def parseU32 (s : List Nat) : Option Nat :=
  let digits := match s with
    | 43 :: rest => rest
    | _ => s
  if digits.isEmpty then none
  else if digits.all (fun b => decide (48 ≤ b) && decide (b ≤ 57)) then
    let v := digits.foldl (fun acc b => acc * 10 + (b - 48)) 0
    if v < 4294967296 then some v else none
  else none

/-- `"move"` and `"_"` as UTF-8 bytes (`MOVE_FILE_EXTENSION`,
`TEST_CASE_NAME_SPLITTER`). -/
def MOVE_FILE_EXTENSION : List Nat := [109, 111, 118, 101]

def TEST_CASE_NAME_SPLITTER : Nat := 95

/-- Outcome of a computation that may hit a rust `unwrap()` panic. -/
inductive ScanOutcome (α : Type)
  | ok (a : α)
  | panicked
deriving DecidableEq

/-- The body of the scan loop of `TestCase::load` for one directory entry:
skip names with fewer than two `'_'`-separated segments, `parse().unwrap()`
the first segment (panicking when it is not a number), then classify the
entry as a simple move file (extension `move`; `extension().unwrap()` panics
on an extension-less file), a move directory, or skip it. -/
def scanEntry (e : DirEntry) : ScanOutcome (Option (Nat × MoveSource)) :=
  let split_string := splitOnByte TEST_CASE_NAME_SPLITTER e.name
  if split_string.length < 2 then .ok none
  else
    match parseU32 split_string.headI with
    | none => .panicked
    | some test_index =>
      if e.isFile then
        match e.ext with
        | none => .panicked
        | some x =>
          if x = MOVE_FILE_EXTENSION then .ok (some (test_index, .SimpleMoveFile e.name))
          else .ok none
      else if e.isDir then .ok (some (test_index, .MoveDirectory e.name))
      else .ok none

/-- The scan loop of `TestCase::load` over all directory entries, in
directory order. -/
def scanEntries : List DirEntry → ScanOutcome (List (Nat × MoveSource))
  | [] => .ok []
  | e :: es =>
    match scanEntry e with
    | .panicked => .panicked
    | .ok none => scanEntries es
    | .ok (some p) =>
      match scanEntries es with
      | .panicked => .panicked
      | .ok rest => .ok (p :: rest)

/-- The consecutive-step check of `TestCase::load`: element `i` of the sorted
list must carry step number `first_idx + i`. -/
def consecutiveFrom (k : Nat) : List (Nat × MoveSource) → Bool
  | [] => true
  | (i, _) :: rest => (i == k) && consecutiveFrom (k + 1) rest

/-- Result of `TestCase::load`: `Ok`, `Err`, or a panic from an `unwrap()`. -/
inductive LoadOutcome
  | panicked
  | err (msg : String)
  | ok (tc : TestCase)
deriving DecidableEq

/-- `TestCase::load` (`.../src/test_case.rs`): check the target is a
directory, scan its entries for move files, sort them by step number
(`sort_by_key` is a stable sort; insertion sort agrees with it whenever the
keys are distinct, and duplicate keys always fail the consecutive check, so
the `Ok`/`Err` outcome is unaffected), require at least one move file and
consecutive step numbers, and return the sources in sorted order. -/
def load (test_case_folder : List Nat) (folder_is_dir : Bool)
    (entries : List DirEntry) : LoadOutcome :=
  if folder_is_dir = false then
    .err "Test case folder does not exist or path is not a folder."
  else
    match scanEntries entries with
    | .panicked => .panicked
    | .ok move_files =>
      let sorted := List.insertionSort (fun a b => a.1 ≤ b.1) move_files
      if sorted.isEmpty then
        .err "No move files found in the test case folder."
      else if consecutiveFrom sorted.headI.1 sorted then
        .ok ⟨test_case_folder, sorted.map Prod.snd⟩
      else .err "Move files are not consecutive."

theorem consecutiveFrom_iff (l : List (Nat × MoveSource)) (k : Nat) :
    consecutiveFrom k l = true ↔ l.map Prod.fst = List.range' k l.length := by
  induction l generalizing k with
  | nil => simp [consecutiveFrom]
  | cons p rest ih =>
    cases p with
    | mk i s =>
      simp [consecutiveFrom, List.range'_succ, ih]

/-- C10 (amended): provided the entry scan completes without an `unwrap()`
panic, `TestCase::load` returns `Ok` only when the step numbers of the
matching entries form a consecutive run starting at the smallest one, with at
least one move source, in which case `move_sources` is the sources ordered by
ascending step number; it returns `Err` when no move files are found or the
step numbers are not consecutive. -/
theorem load_spec (folder : List Nat) (entries : List DirEntry)
    (mfs : List (Nat × MoveSource)) (hscan : scanEntries entries = .ok mfs) :
    (∀ tc, load folder true entries = .ok tc →
        mfs ≠ [] ∧
        ∃ pairs : List (Nat × MoveSource),
          pairs.Perm mfs ∧
          pairs.map Prod.fst = List.range' pairs.headI.1 pairs.length ∧
          tc.move_sources = pairs.map Prod.snd) ∧
    (mfs = [] →
      load folder true entries = .err "No move files found in the test case folder.") ∧
    (mfs ≠ [] →
      (¬ ∃ k, (mfs.map Prod.fst).Perm (List.range' k mfs.length)) →
      load folder true entries = .err "Move files are not consecutive.") := by
  have hperm : (List.insertionSort (fun a b => a.1 ≤ b.1) mfs).Perm mfs :=
    List.perm_insertionSort _ _
  refine ⟨?_, ?_, ?_⟩
  · intro tc htc
    by_cases hemp : (List.insertionSort (fun a b => a.1 ≤ b.1) mfs).isEmpty
    · simp [load, hscan, hemp] at htc
    · by_cases hcons : consecutiveFrom
        (List.insertionSort (fun a b => a.1 ≤ b.1) mfs).headI.1
        (List.insertionSort (fun a b => a.1 ≤ b.1) mfs) = true
      · have heq : load folder true entries =
            .ok ⟨folder,
              List.map Prod.snd (List.insertionSort (fun a b => a.1 ≤ b.1) mfs)⟩ := by
          simp [load, hscan, hemp, hcons]
        rw [heq] at htc
        injection htc with h
        subst h
        have hsorted := (consecutiveFrom_iff _ _).mp hcons
        have hne : mfs ≠ [] := by
          intro h
          subst h
          exact hemp (by rw [List.Perm.eq_nil hperm]; rfl)
        exact ⟨hne, List.insertionSort (fun a b => a.1 ≤ b.1) mfs, hperm,
          hsorted, rfl⟩
      · simp [load, hscan, hemp, hcons] at htc
  · intro h
    subst h
    simp [load, hscan, List.insertionSort]
  · intro hne hnex
    by_cases hemp : (List.insertionSort (fun a b => a.1 ≤ b.1) mfs).isEmpty
    · have h1 : List.insertionSort (fun a b : Nat × MoveSource => a.1 ≤ b.1) mfs = [] :=
        List.isEmpty_iff.mp hemp
      have h2 : mfs.Perm [] := by rw [← h1]; exact hperm.symm
      exact absurd (List.Perm.eq_nil h2) hne
    · by_cases hcons : consecutiveFrom
        (List.insertionSort (fun a b => a.1 ≤ b.1) mfs).headI.1
        (List.insertionSort (fun a b => a.1 ≤ b.1) mfs) = true
      · exfalso
        apply hnex
        refine ⟨(List.insertionSort (fun a b => a.1 ≤ b.1) mfs).headI.1, ?_⟩
        have hsorted := (consecutiveFrom_iff _ _).mp hcons
        have hlen : (List.insertionSort (fun a b => a.1 ≤ b.1) mfs).length =
            mfs.length := hperm.length_eq
        rw [← hlen, ← hsorted]
        exact (hperm.map Prod.fst).symm
      · simp [load, hscan, hemp, hcons]

/-- C10 counterexample: a directory whose only entry is the file `x_y.txt`
(name `[120, 95, 121, 46, 116, 120, 116]`, extension `txt`) contains no move
files, yet `load` does not return `Err`: `parse::<u32>().unwrap()` on the
segment `"x"` panics before the emptiness check is reached. -/
theorem load_unwrap_panic :
    load [] true
      [⟨[120, 95, 121, 46, 116, 120, 116], true, false, some [116, 120, 116]⟩] =
      LoadOutcome.panicked := by
  rfl

/-- Witness for `load_spec`: a directory with the single non-matching file
`a` scans to no move files, and `load` returns the no-move-files error. -/
theorem load_spec_witness :
    load [] true [⟨[97], true, false, some MOVE_FILE_EXTENSION⟩] =
      .err "No move files found in the test case folder." :=
  (load_spec [] [⟨[97], true, false, some MOVE_FILE_EXTENSION⟩] [] rfl).2.1 rfl

end TestCaseLoad

namespace VersionedStore

/-- Modelled from the spec: the per-key entry cell of the Versioned Store
(`aptos_mvhashmap::MVHashMap`, not in the source snapshot; spec section 4.2) —
either the committed write of an incarnation, or an estimate marker left by
`mark_estimate` while the writing transaction is mid-execution. -/
inductive EntryCell (V : Type)
  | estimate (incarnation : Nat)
  | value (incarnation : Nat) (v : V)
deriving DecidableEq

/-- Modelled from the spec: the Versioned Store contents as a list of
`(key, txn_idx, cell)` entries (spec section 4.2: a version list per key). -/
abbrev Store (K V : Type) : Type := List (K × Nat × EntryCell V)

/-- The outcome of `read(key, txn_idx)` (spec section 4.2):
`Resolved(Version, Value)`, `Dependency(blocking_idx)`, or `NotFound`. -/
inductive ReadRes (V : Type)
  | resolved (version : Nat × Nat) (v : V)
  | dependency (blocking_idx : Nat)
  | notFound
deriving DecidableEq

/-- The entry with the largest transaction index among a list of store
entries (earlier entry wins ties; with the per-(key, index) uniqueness
invariant of spec section 4.2 ties cannot occur). -/
def maxEntry {K V : Type} : List (K × Nat × EntryCell V) → Option (K × Nat × EntryCell V)
  | [] => none
  | e :: es =>
    match maxEntry es with
    | none => some e
    | some e' => if e'.2.1 ≤ e.2.1 then some e else some e'

/-- Modelled from the spec: `read(key, txn_idx)` of the Versioned Store (spec
section 4.2) — among the entries for `key` with transaction index strictly
below `txn_idx`, take the one with the highest index; an estimate yields
`Dependency`, a value yields `Resolved` with its version, nothing yields
`NotFound`. -/
def readStore {K V : Type} [DecidableEq K] (st : Store K V) (k : K) (txn_idx : Nat) :
    ReadRes V :=
  let below := st.filter (fun e => decide (e.1 = k) && decide (e.2.1 < txn_idx))
  match maxEntry below with
  | none => .notFound
  | some (_, j, .estimate _) => .dependency j
  | some (_, j, .value inc v) => .resolved (j, inc) v

theorem maxEntry_spec {K V : Type} (l : List (K × Nat × EntryCell V)) :
    (maxEntry l = none ↔ l = []) ∧
    (∀ e, maxEntry l = some e → e ∈ l ∧ ∀ e' ∈ l, e'.2.1 ≤ e.2.1) := by
  induction l with
  | nil => simp [maxEntry]
  | cons x xs ih =>
    constructor
    · simp only [maxEntry]
      cases h : maxEntry xs with
      | none => simp
      | some e' => by_cases hle : e'.2.1 ≤ x.2.1 <;> simp [hle]
    · intro e he
      simp only [maxEntry] at he
      cases h : maxEntry xs with
      | none =>
        rw [h] at he
        have hxs : xs = [] := (ih.1).mp h
        subst hxs
        simp at he
        subst he
        simp
      | some e' =>
        rw [h] at he
        have he' := ih.2 e' h
        by_cases hle : e'.2.1 ≤ x.2.1
        · simp [hle] at he
          subst he
          refine ⟨List.mem_cons_self _ _, ?_⟩
          intro f hf
          rcases List.mem_cons.mp hf with h1 | h1
          · subst h1; exact le_refl _
          · exact le_trans (he'.2 f h1) hle
        · simp [hle] at he
          subst he
          refine ⟨List.mem_cons_of_mem _ he'.1, ?_⟩
          intro f hf
          rcases List.mem_cons.mp hf with h1 | h1
          · subst h1; omega
          · exact he'.2 f h1

/-- C4: `read(key, txn_idx)` returns the entry for `key` with the highest
transaction index strictly below `txn_idx` (with its version and value); if
that entry is an estimate (its writer is mid-execution) it returns
`Dependency(blocking_idx)`; if no entry for `key` exists below `txn_idx` it
returns `NotFound`.  The hypothesis is the store invariant of spec section
4.2: at most one entry per (key, transaction index). -/
theorem readStore_spec {K V : Type} [DecidableEq K] (st : Store K V) (k : K) (i : Nat)
    (huniq : ∀ e₁ ∈ st, ∀ e₂ ∈ st, e₁.1 = e₂.1 → e₁.2.1 = e₂.2.1 → e₁ = e₂) :
    (readStore st k i = .notFound ↔ ∀ e ∈ st, e.1 = k → ¬ e.2.1 < i) ∧
    (∀ j inc v, readStore st k i = .resolved (j, inc) v ↔
      ((k, j, EntryCell.value inc v) ∈ st ∧ j < i ∧
        ∀ e ∈ st, e.1 = k → e.2.1 < i → e.2.1 ≤ j)) ∧
    (∀ j, readStore st k i = .dependency j ↔
      (∃ inc, (k, j, EntryCell.estimate inc) ∈ st ∧ j < i ∧
        ∀ e ∈ st, e.1 = k → e.2.1 < i → e.2.1 ≤ j)) := by
  have hmem : ∀ e : K × Nat × EntryCell V,
      e ∈ st.filter (fun e => decide (e.1 = k) && decide (e.2.1 < i)) ↔
        (e ∈ st ∧ e.1 = k ∧ e.2.1 < i) := by
    intro e
    simp [List.mem_filter, and_assoc]
  cases hmax : maxEntry (st.filter (fun e => decide (e.1 = k) && decide (e.2.1 < i))) with
  | none =>
    have hempty := (maxEntry_spec _).1.mp hmax
    have hnone : ∀ e ∈ st, e.1 = k → ¬ e.2.1 < i := by
      intro e hest hek hlt
      have : e ∈ st.filter (fun e => decide (e.1 = k) && decide (e.2.1 < i)) :=
        (hmem e).mpr ⟨hest, hek, hlt⟩
      rw [hempty] at this
      exact absurd this (List.not_mem_nil e)
    have hread : readStore st k i = .notFound := by
      simp [readStore, hmax]
    refine ⟨⟨fun _ => hnone, fun _ => hread⟩, ?_, ?_⟩
    · intro j inc v
      rw [hread]
      constructor
      · intro h; exact absurd h (by simp)
      · rintro ⟨hm, hlt, -⟩
        exact absurd hlt (hnone _ hm rfl)
    · intro j
      rw [hread]
      constructor
      · intro h; exact absurd h (by simp)
      · rintro ⟨inc, hm, hlt, -⟩
        exact absurd hlt (hnone _ hm rfl)
  | some e =>
    obtain ⟨hein, hemax⟩ := (maxEntry_spec _).2 e hmax
    obtain ⟨hest, hek, helt⟩ := (hmem e).mp hein
    have hmax' : ∀ f ∈ st, f.1 = k → f.2.1 < i → f.2.1 ≤ e.2.1 := by
      intro f hf hfk hflt
      exact hemax f ((hmem f).mpr ⟨hf, hfk, hflt⟩)
    obtain ⟨k₀, j₀, cell⟩ := e
    obtain rfl : k₀ = k := hek
    cases cell with
    | estimate inc₀ =>
      have hread : readStore st k₀ i = .dependency j₀ := by
        simp [readStore, hmax]
      refine ⟨?_, ?_, ?_⟩
      · rw [hread]
        constructor
        · intro h; exact absurd h (by simp)
        · intro h
          exact absurd helt (h _ hest rfl)
      · intro j inc v
        rw [hread]
        constructor
        · intro h; exact absurd h (by simp)
        · rintro ⟨hm, hlt, hmaxj⟩
          have h1 : j ≤ j₀ := hmax' _ hm rfl hlt
          have h2 : j₀ ≤ j := hmaxj _ hest rfl helt
          have hj : j = j₀ := le_antisymm h1 h2
          subst hj
          have := huniq _ hm _ hest rfl rfl
          simp at this
      · intro j
        rw [hread]
        constructor
        · intro h
          have hj : j = j₀ := by
            cases h; rfl
          subst hj
          exact ⟨inc₀, hest, helt, hmax'⟩
        · rintro ⟨inc, hm, hlt, hmaxj⟩
          have h1 : j ≤ j₀ := hmax' _ hm rfl hlt
          have h2 : j₀ ≤ j := hmaxj _ hest rfl helt
          have hj : j = j₀ := le_antisymm h1 h2
          subst hj
          rfl
    | value inc₀ v₀ =>
      have hread : readStore st k₀ i = .resolved (j₀, inc₀) v₀ := by
        simp [readStore, hmax]
      refine ⟨?_, ?_, ?_⟩
      · rw [hread]
        constructor
        · intro h; exact absurd h (by simp)
        · intro h
          exact absurd helt (h _ hest rfl)
      · intro j inc v
        rw [hread]
        constructor
        · intro h
          obtain ⟨hj, hinc, hv⟩ : j₀ = j ∧ inc₀ = inc ∧ v₀ = v := by
            cases h; exact ⟨rfl, rfl, rfl⟩
          subst hj; subst hinc; subst hv
          exact ⟨hest, helt, hmax'⟩
        · rintro ⟨hm, hlt, hmaxj⟩
          have h1 : j ≤ j₀ := hmax' _ hm rfl hlt
          have h2 : j₀ ≤ j := hmaxj _ hest rfl helt
          have hj : j = j₀ := le_antisymm h1 h2
          subst hj
          have heq := huniq _ hm _ hest rfl rfl
          simp only [Prod.mk.injEq, EntryCell.value.injEq] at heq
          obtain ⟨-, -, hinc, hv⟩ := heq
          subst hinc; subst hv
          rfl
      · intro j
        rw [hread]
        constructor
        · intro h; exact absurd h (by simp)
        · rintro ⟨inc, hm, hlt, hmaxj⟩
          have h1 : j ≤ j₀ := hmax' _ hm rfl hlt
          have h2 : j₀ ≤ j := hmaxj _ hest rfl helt
          have hj : j = j₀ := le_antisymm h1 h2
          subst hj
          have := huniq _ hm _ hest rfl rfl
          simp at this

/-- Witness for `readStore_spec`: a concrete two-entry store; the read below
index 2 resolves to transaction 1's write. -/
theorem readStore_spec_witness :
    readStore ([(0, 0, EntryCell.value 0 7), (0, 1, EntryCell.value 2 9)] :
        Store Nat Nat) 0 2 = .resolved (1, 2) 9 ∧
    (0, 1, EntryCell.value 2 9) ∈
      ([(0, 0, EntryCell.value 0 7), (0, 1, EntryCell.value 2 9)] : Store Nat Nat) := by
  constructor
  · exact ((readStore_spec
      ([(0, 0, EntryCell.value 0 7), (0, 1, EntryCell.value 2 9)] : Store Nat Nat)
      0 2 (by decide)).2.1 1 2 9).mpr (by decide)
  · decide

end VersionedStore

namespace BlockSTM

/-- Modelled from the spec: per-transaction status (spec section 3,
`TxnStatus`); `Committed` is tracked by the commit cursor instead of a
per-transaction flag, and `Executed`/`Aborting` carry the current
incarnation implicitly through the state's incarnation counter. -/
inductive TStatus
  | pending
  | executing
  | executed
  | aborting
deriving DecidableEq

/-- Modelled from the spec: the shared Block-STM state (spec sections 3-5;
the scheduler/MVHashMap implementations are not in the source snapshot).
`inc i` is transaction `i`'s current incarnation; `io i` is the read set
(keys with the observed values) and write set recorded by the latest
completed execution of `i` (`TxnLastInputOutput`), discarded on abort;
`valid i` says `i`'s latest incarnation has passed validation; `committed`
is the commit cursor; `halted` carries a fatal error; `attempts i` is the
history of incarnations whose execution was started (ghost data for the
monotonicity claim). -/
structure St (K V E : Type) where
  inc : Nat → Nat
  status : Nat → TStatus
  io : Nat → Option (List (K × Option V) × List (K × V))
  valid : Nat → Bool
  committed : Nat
  halted : Option E
  attempts : Nat → List Nat

/-- The initial state of a block run. -/
def init (K V E : Type) : St K V E :=
  ⟨fun _ => 0, fun _ => .pending, fun _ => none, fun _ => false, 0, none, fun _ => []⟩

/-- The value a recorded write set (if any) gives to key `k`. -/
def lookupW {K V : Type} [DecidableEq K] (ow : Option (List (K × V))) (k : K) :
    Option V :=
  match ow with
  | none => none
  | some ws => (ws.find? (fun p => decide (p.1 = k))).map Prod.snd

/-- Resolve a read of `k` at transaction `i` against a table of write sets:
the value written by the highest transaction strictly below `i` that wrote
`k`, or `none`.  Spec section 4.2's `read`, restricted to committed-or-
executed entries (discarded incarnations are absent from the table). -/
def resolveT {K V : Type} [DecidableEq K] (w : Nat → Option (List (K × V))) :
    Nat → K → Option V
  | 0, _ => none
  | j + 1, k =>
    match lookupW (w j) k with
    | some v => some v
    | none => resolveT w j k

/-- The read view of transaction `i` over the current state. -/
def resolve {K V E : Type} [DecidableEq K] (s : St K V E) (i : Nat) (k : K) : Option V :=
  resolveT (fun j => (s.io j).map Prod.snd) i k

/-- Does the recorded read set of `io` touch any key written in `w`?  Used
for cascading invalidation (spec section 4.1 `finish_execution` /
section 4.3 cascading abort). -/
def readsTouch {K V : Type} [DecidableEq K]
    (io : Option (List (K × Option V) × List (K × V))) (w : List (K × V)) : Bool :=
  match io with
  | none => false
  | some (r, _) => r.any (fun p => w.any (fun q => decide (q.1 = p.1)))

/-- Does the recorded read set still agree with the current state of the
Versioned Store?  Spec section 4.1 `try_validate`. -/
def agreeReads {K V E : Type} [DecidableEq K] [DecidableEq V]
    (s : St K V E) (i : Nat) (r : List (K × Option V)) : Bool :=
  r.all (fun p => decide (resolve s i p.1 = p.2))

/-- The scheduler actions a worker can perform; a full interleaving is a
list of these (spec section 5).  `start`/`finish` bracket one execution
attempt, `validateOk`/`validateFail` are `try_validate` + `finish_validation`
with the two outcomes, `reenqueue` moves an aborted transaction back to the
execution queue, `commit` advances the commit cursor by one. -/
inductive Action
  | start (i : Nat)
  | finish (i : Nat)
  | validateOk (i : Nat)
  | validateFail (i : Nat)
  | reenqueue (i : Nat)
  | commit
deriving DecidableEq

/-- Modelled from the spec: one atomic scheduler transition (spec sections
4.1, 4.3, 5).  Every action is guarded; a guard that fails (including after a
halt) makes the action a no-op, so an arbitrary action list represents an
arbitrary interleaving of worker scheduling. -/
def step {K V E : Type} [DecidableEq K] [DecidableEq V] (n : Nat)
    (exec : Nat → (K → Option V) → Except E (List K × List (K × V)))
    (s : St K V E) : Action → St K V E
  | .start i =>
    if s.halted.isNone ∧ s.committed ≤ i ∧ i < n ∧ s.status i = .pending then
      { s with
        status := fun j => if j = i then .executing else s.status j,
        attempts := fun j => if j = i then s.attempts j ++ [s.inc i] else s.attempts j }
    else s
  | .finish i =>
    if s.halted.isNone ∧ s.committed ≤ i ∧ s.status i = .executing then
      match exec i (fun k => resolve s i k) with
      | .error e => { s with halted := some e }
      | .ok (rk, w) =>
        { s with
          io := fun j =>
            if j = i then some (rk.map (fun k => (k, resolve s i k)), w) else s.io j,
          status := fun j => if j = i then .executed else s.status j,
          valid := fun j =>
            if j = i then false
            else if i < j ∧ readsTouch (s.io j) w then false else s.valid j }
    else s
  | .validateOk i =>
    if s.halted.isNone ∧ s.committed ≤ i ∧ i < n ∧ s.status i = .executed then
      match s.io i with
      | some (r, _) =>
        if agreeReads s i r then
          { s with valid := fun j => if j = i then true else s.valid j }
        else s
      | none => s
    else s
  | .validateFail i =>
    if s.halted.isNone ∧ s.committed ≤ i ∧ s.status i = .executed then
      match s.io i with
      | some (r, w) =>
        if agreeReads s i r then s
        else
          { s with
            inc := fun j => if j = i then s.inc i + 1 else s.inc j,
            io := fun j => if j = i then none else s.io j,
            status := fun j => if j = i then .aborting else s.status j,
            valid := fun j =>
              if j = i then false
              else if i < j ∧ readsTouch (s.io j) w then false else s.valid j }
      | none => s
    else s
  | .reenqueue i =>
    if s.halted.isNone ∧ s.status i = .aborting then
      { s with status := fun j => if j = i then .pending else s.status j }
    else s
  | .commit =>
    if s.halted.isNone ∧ s.committed < n ∧ s.status s.committed = .executed ∧
        s.valid s.committed = true then
      { s with committed := s.committed + 1 }
    else s

/-- Run a whole interleaving from the initial state. -/
def run {K V E : Type} [DecidableEq K] [DecidableEq V] (n : Nat)
    (exec : Nat → (K → Option V) → Except E (List K × List (K × V)))
    (acts : List Action) : St K V E :=
  acts.foldl (step n exec) (init K V E)

/-- Sequential execution of the block prefix of length `m` (spec section 8,
serializability baseline): each transaction executes against the writes of
its predecessors; the table collects the write sets in order. -/
def seqTable {K V E : Type} [DecidableEq K]
    (exec : Nat → (K → Option V) → Except E (List K × List (K × V))) :
    Nat → Except E (List (List (K × V)))
  | 0 => .ok []
  | m + 1 =>
    match seqTable exec m with
    | .error e => .error e
    | .ok t =>
      match exec m (fun k => resolveT (fun j => t.get? j) m k) with
      | .ok (_, w) => .ok (t ++ [w])
      | .error e => .error e

/-- The write-set table underlying a state's read view. -/
def wtab {K V E : Type} (s : St K V E) : Nat → Option (List (K × V)) :=
  fun j => (s.io j).map Prod.snd

theorem resolve_eq_resolveT {K V E : Type} [DecidableEq K] (s : St K V E)
    (i : Nat) (k : K) : resolve s i k = resolveT (wtab s) i k := rfl

theorem resolveT_congr {K V : Type} [DecidableEq K]
    (w₁ w₂ : Nat → Option (List (K × V))) (j : Nat)
    (h : ∀ j' < j, w₁ j' = w₂ j') (k : K) : resolveT w₁ j k = resolveT w₂ j k := by
  induction j with
  | zero => rfl
  | succ m ih =>
    have hm := h m (Nat.lt_succ_self m)
    have ih' := ih (fun j' hj' => h j' (Nat.lt_succ_of_lt hj'))
    simp only [resolveT, hm]
    cases lookupW (w₂ m) k with
    | none => exact ih'
    | some v => rfl

/-- Changing the table at one index from `none` to a write set that does not
bind `k` (or back) leaves every read of `k` unchanged. -/
theorem resolveT_toggle {K V : Type} [DecidableEq K]
    (w₁ w₂ : Nat → Option (List (K × V))) (i : Nat) (ws : List (K × V))
    (hne : ∀ j, j ≠ i → w₁ j = w₂ j) (h₁ : w₁ i = none) (h₂ : w₂ i = some ws)
    (k : K) (hk : ws.find? (fun p => decide (p.1 = k)) = none) :
    ∀ j, resolveT w₁ j k = resolveT w₂ j k := by
  intro j
  induction j with
  | zero => rfl
  | succ m ih =>
    by_cases hm : m = i
    · subst hm
      have hl₁ : lookupW (w₁ m) k = none := by rw [h₁]; rfl
      have hl₂ : lookupW (w₂ m) k = none := by rw [h₂]; simp [lookupW, hk]
      simp only [resolveT, hl₁, hl₂]
      exact ih
    · simp only [resolveT, hne m hm]
      cases lookupW (w₂ m) k with
      | none => exact ih
      | some v => rfl

/-- The state invariant of the Block-STM model: validated read sets agree
with the store, recorded input/output really is what `exec` produces on any
view matching the recorded reads, the committed prefix is validated and
executed, and transactions that are not `Executed` have no recorded
input/output. -/
structure Inv {K V E : Type} [DecidableEq K] [DecidableEq V] (n : Nat)
    (exec : Nat → (K → Option V) → Except E (List K × List (K × V)))
    (s : St K V E) : Prop where
  validAgree : ∀ i r w, s.valid i = true → s.io i = some (r, w) →
    ∀ p ∈ r, resolve s i p.1 = p.2
  ioExec : ∀ i r w, s.io i = some (r, w) →
    ∀ v : K → Option V, (∀ p ∈ r, v p.1 = p.2) → exec i v = .ok (r.map Prod.fst, w)
  committedValid : ∀ i, i < s.committed → s.valid i = true ∧ s.status i = .executed
  ioNone : ∀ i, s.status i ≠ .executed → s.io i = none
  ioSome : ∀ i, s.status i = .executed → s.io i ≠ none

theorem inv_init {K V E : Type} [DecidableEq K] [DecidableEq V] (n : Nat)
    (exec : Nat → (K → Option V) → Except E (List K × List (K × V))) :
    Inv n exec (init K V E) := by
  refine ⟨?_, ?_, ?_, ?_, ?_⟩ <;> intro i <;> simp [init]

theorem inv_step_start {K V E : Type} [DecidableEq K] [DecidableEq V] {n : Nat}
    {exec : Nat → (K → Option V) → Except E (List K × List (K × V))}
    {s : St K V E} (hs : Inv n exec s) (i : Nat) :
    Inv n exec (step n exec s (.start i)) := by
  by_cases hg : (s.halted.isNone = true ∧ s.committed ≤ i ∧ i < n ∧
      s.status i = TStatus.pending)
  · simp only [step, if_pos hg]
    refine ⟨hs.validAgree, hs.ioExec, ?_, ?_, ?_⟩
    · intro j hj
      have hj' : j < s.committed := hj
      obtain ⟨hv, hst⟩ := hs.committedValid j hj'
      have hci := hg.2.1
      have hji : j ≠ i := by omega
      exact ⟨hv, by simp [hji, hst]⟩
    · intro j hst
      by_cases hji : j = i
      · subst hji
        exact hs.ioNone j (by simp [hg.2.2.2])
      · simp only [if_neg hji] at hst
        exact hs.ioNone j hst
    · intro j hst
      by_cases hji : j = i
      · subst hji
        simp only [if_pos rfl] at hst
        cases hst
      · simp only [if_neg hji] at hst
        exact hs.ioSome j hst
  · simp only [step, if_neg hg]
    exact hs

theorem inv_step_validateOk {K V E : Type} [DecidableEq K] [DecidableEq V] {n : Nat}
    {exec : Nat → (K → Option V) → Except E (List K × List (K × V))}
    {s : St K V E} (hs : Inv n exec s) (i : Nat) :
    Inv n exec (step n exec s (.validateOk i)) := by
  by_cases hg : (s.halted.isNone = true ∧ s.committed ≤ i ∧ i < n ∧
      s.status i = TStatus.executed)
  · simp only [step, if_pos hg]
    split
    · rename_i r w hio
      by_cases hagree : agreeReads s i r = true
      · rw [if_pos hagree]
        refine ⟨?_, hs.ioExec, ?_, hs.ioNone, hs.ioSome⟩
        · intro j r' w' hv' hio' p hp
          by_cases hji : j = i
          · subst hji
            have hio'' : s.io j = some (r', w') := hio'
            rw [hio] at hio''
            injection hio'' with h1
            cases h1
            have hpp := List.all_eq_true.mp hagree p hp
            exact of_decide_eq_true hpp
          · simp only [if_neg hji] at hv'
            exact hs.validAgree j r' w' hv' hio' p hp
        · intro j hj
          have hj' : j < s.committed := hj
          obtain ⟨hv, hst⟩ := hs.committedValid j hj'
          refine ⟨?_, hst⟩
          by_cases hji : j = i
          · simp [hji]
          · simp [hji, hv]
      · rw [if_neg hagree]
        exact hs
    · exact hs
  · simp only [step, if_neg hg]
    exact hs

theorem readsTouch_false_find {K V : Type} [DecidableEq K]
    {r : List (K × Option V)} {ws : List (K × V)} {w : List (K × V)}
    (h : readsTouch (some (r, ws)) w = false) {p : K × Option V} (hp : p ∈ r) :
    w.find? (fun q => decide (q.1 = p.1)) = none := by
  rw [List.find?_eq_none]
  intro q hq
  simp only [readsTouch, List.any_eq_false] at h
  have h1 := h p hp
  rw [Bool.not_eq_true, List.any_eq_false] at h1
  exact h1 q hq

theorem inv_step_finish {K V E : Type} [DecidableEq K] [DecidableEq V] {n : Nat}
    {exec : Nat → (K → Option V) → Except E (List K × List (K × V))}
    (hdet : ∀ (i : Nat) (v₁ v₂ : K → Option V) (r : List K) (w : List (K × V)),
      exec i v₁ = .ok (r, w) → (∀ k ∈ r, v₁ k = v₂ k) → exec i v₂ = .ok (r, w))
    {s : St K V E} (hs : Inv n exec s) (i : Nat) :
    Inv n exec (step n exec s (.finish i)) := by
  by_cases hg : (s.halted.isNone = true ∧ s.committed ≤ i ∧
      s.status i = TStatus.executing)
  · simp only [step, if_pos hg]
    split
    · exact ⟨hs.validAgree, hs.ioExec, hs.committedValid, hs.ioNone, hs.ioSome⟩
    · rename_i rk w hex
      have hioi : s.io i = none := hs.ioNone i (by simp [hg.2.2])
      -- read view of any txn on a key not written by `w` is unchanged
      have hview : ∀ (k : K), w.find? (fun q => decide (q.1 = k)) = none →
          ∀ j, resolveT (wtab s) j k = resolveT (fun j' =>
            ((if j' = i then some ((rk.map fun k => (k, resolve s i k)), w)
              else s.io j').map Prod.snd)) j k := by
        intro k hk j
        refine resolveT_toggle _ _ i w ?_ ?_ ?_ k hk j
        · intro j' hj'
          simp [wtab, hj']
        · simp [wtab, hioi]
        · simp
      -- read view of txns at or below `i` is unchanged on every key
      have hviewLow : ∀ j, j ≤ i → ∀ (k : K),
          resolveT (fun j' =>
            ((if j' = i then some ((rk.map fun k => (k, resolve s i k)), w)
              else s.io j').map Prod.snd)) j k = resolveT (wtab s) j k := by
        intro j hj k
        refine resolveT_congr _ _ j ?_ k
        intro j' hj'
        have : j' ≠ i := by omega
        simp [wtab, this]
      refine ⟨?_, ?_, ?_, ?_, ?_⟩
      · intro j r' w' hv' hio' p hp
        dsimp only at hv' hio' ⊢
        by_cases hji : j = i
        · rw [if_pos hji] at hv'
          cases hv'
        · rw [if_neg hji] at hv' hio'
          by_cases htc : (i < j ∧ readsTouch (s.io j) w = true)
          · rw [if_pos htc] at hv'
            cases hv'
          · rw [if_neg htc] at hv'
            have hold := hs.validAgree j r' w' hv' hio' p hp
            by_cases hij : i < j
            · have htouch : readsTouch (s.io j) w = false := by
                cases h1 : readsTouch (s.io j) w
                · rfl
                · exact absurd ⟨hij, h1⟩ htc
              rw [hio'] at htouch
              have hk := readsTouch_false_find htouch hp
              refine Eq.trans ?_ hold
              exact (hview p.1 hk j).symm
            · have hle : j ≤ i := by omega
              exact (hviewLow j hle p.1).trans hold
      · intro j r₂ w₂ hio' v hvv
        dsimp only at hio'
        by_cases hji : j = i
        · subst hji
          rw [if_pos rfl] at hio'
          injection hio' with h1
          cases h1
          have hmapfst : ((rk.map fun k => (k, resolve s j k)).map Prod.fst) = rk := by
            have hcomp : (Prod.fst ∘ fun k : K => (k, resolve s j k)) = id := rfl
            rw [List.map_map, hcomp, List.map_id]
          have hagree : ∀ k ∈ rk, resolve s j k = v k := by
            intro k hk
            have hmem : (k, resolve s j k) ∈ rk.map fun k => (k, resolve s j k) :=
              List.mem_map_of_mem _ hk
            exact (hvv _ hmem).symm
          rw [hmapfst]
          exact hdet j (fun k => resolve s j k) v rk w hex hagree
        · rw [if_neg hji] at hio'
          exact hs.ioExec j r₂ w₂ hio' v hvv
      · intro j hj
        have hj' : j < s.committed := hj
        obtain ⟨hv, hst⟩ := hs.committedValid j hj'
        have hci := hg.2.1
        have hji : j ≠ i := by omega
        have hcond : ¬ (i < j ∧ readsTouch (s.io j) w = true) := by
          rintro ⟨h1, -⟩
          omega
        constructor
        · dsimp only
          rw [if_neg hji, if_neg hcond]
          exact hv
        · dsimp only
          rw [if_neg hji]
          exact hst
      · intro j hst
        dsimp only at hst ⊢
        by_cases hji : j = i
        · rw [if_pos hji] at hst
          exact absurd rfl hst
        · rw [if_neg hji] at hst ⊢
          exact hs.ioNone j hst
      · intro j hst
        dsimp only at hst ⊢
        by_cases hji : j = i
        · rw [if_pos hji]
          simp
        · rw [if_neg hji] at hst ⊢
          exact hs.ioSome j hst
  · simp only [step, if_neg hg]
    exact hs

theorem inv_step_reenqueue {K V E : Type} [DecidableEq K] [DecidableEq V] {n : Nat}
    {exec : Nat → (K → Option V) → Except E (List K × List (K × V))}
    {s : St K V E} (hs : Inv n exec s) (i : Nat) :
    Inv n exec (step n exec s (.reenqueue i)) := by
  by_cases hg : (s.halted.isNone = true ∧ s.status i = TStatus.aborting)
  · simp only [step, if_pos hg]
    refine ⟨hs.validAgree, hs.ioExec, ?_, ?_, ?_⟩
    · intro j hj
      obtain ⟨hv, hst⟩ := hs.committedValid j hj
      refine ⟨hv, ?_⟩
      by_cases hji : j = i
      · subst hji
        rw [hg.2] at hst
        cases hst
      · simp [hji, hst]
    · intro j hst
      by_cases hji : j = i
      · subst hji
        exact hs.ioNone j (by simp [hg.2])
      · simp only [if_neg hji] at hst
        exact hs.ioNone j hst
    · intro j hst
      by_cases hji : j = i
      · subst hji
        simp only [if_pos rfl] at hst
        cases hst
      · simp only [if_neg hji] at hst
        exact hs.ioSome j hst
  · simp only [step, if_neg hg]
    exact hs

theorem inv_step_validateFail {K V E : Type} [DecidableEq K] [DecidableEq V] {n : Nat}
    {exec : Nat → (K → Option V) → Except E (List K × List (K × V))}
    {s : St K V E} (hs : Inv n exec s) (i : Nat) :
    Inv n exec (step n exec s (.validateFail i)) := by
  by_cases hg : (s.halted.isNone = true ∧ s.committed ≤ i ∧
      s.status i = TStatus.executed)
  · simp only [step, if_pos hg]
    split
    · rename_i r w hio
      by_cases hagree : agreeReads s i r = true
      · rw [if_pos hagree]
        exact hs
      · rw [if_neg hagree]
        have hview : ∀ (k : K), w.find? (fun q => decide (q.1 = k)) = none →
            ∀ j, resolveT (fun j' =>
              ((if j' = i then none else s.io j').map Prod.snd)) j k =
              resolveT (wtab s) j k := by
          intro k hk j
          refine resolveT_toggle _ _ i w ?_ ?_ ?_ k hk j
          · intro j' hj'
            simp [wtab, hj']
          · simp
          · simp [wtab, hio]
        have hviewLow : ∀ j, j ≤ i → ∀ (k : K),
            resolveT (fun j' =>
              ((if j' = i then none else s.io j').map Prod.snd)) j k =
              resolveT (wtab s) j k := by
          intro j hj k
          refine resolveT_congr _ _ j ?_ k
          intro j' hj'
          have hne : j' ≠ i := by omega
          simp [wtab, hne]
        refine ⟨?_, ?_, ?_, ?_, ?_⟩
        · intro j r₂ w₂ hv' hio' p hp
          dsimp only at hv' hio' ⊢
          by_cases hji : j = i
          · rw [if_pos hji] at hv'
            cases hv'
          · rw [if_neg hji] at hv' hio'
            by_cases htc : (i < j ∧ readsTouch (s.io j) w = true)
            · rw [if_pos htc] at hv'
              cases hv'
            · rw [if_neg htc] at hv'
              have hold := hs.validAgree j r₂ w₂ hv' hio' p hp
              by_cases hij : i < j
              · have htouch : readsTouch (s.io j) w = false := by
                  cases h1 : readsTouch (s.io j) w
                  · rfl
                  · exact absurd ⟨hij, h1⟩ htc
                rw [hio'] at htouch
                have hk := readsTouch_false_find htouch hp
                exact (hview p.1 hk j).trans hold
              · have hle : j ≤ i := by omega
                exact (hviewLow j hle p.1).trans hold
        · intro j r₂ w₂ hio' v hvv
          dsimp only at hio'
          by_cases hji : j = i
          · rw [if_pos hji] at hio'
            cases hio'
          · rw [if_neg hji] at hio'
            exact hs.ioExec j r₂ w₂ hio' v hvv
        · intro j hj
          have hj' : j < s.committed := hj
          obtain ⟨hv, hst⟩ := hs.committedValid j hj'
          have hci := hg.2.1
          have hji : j ≠ i := by omega
          have hcond : ¬ (i < j ∧ readsTouch (s.io j) w = true) := by
            rintro ⟨h1, -⟩
            omega
          constructor
          · dsimp only
            rw [if_neg hji, if_neg hcond]
            exact hv
          · dsimp only
            rw [if_neg hji]
            exact hst
        · intro j hst
          dsimp only at hst ⊢
          by_cases hji : j = i
          · rw [if_pos hji]
          · rw [if_neg hji] at hst ⊢
            exact hs.ioNone j hst
        · intro j hst
          dsimp only at hst ⊢
          by_cases hji : j = i
          · rw [if_pos hji] at hst
            cases hst
          · rw [if_neg hji] at hst ⊢
            exact hs.ioSome j hst
    · exact hs
  · simp only [step, if_neg hg]
    exact hs

theorem inv_step_commit {K V E : Type} [DecidableEq K] [DecidableEq V] {n : Nat}
    {exec : Nat → (K → Option V) → Except E (List K × List (K × V))}
    {s : St K V E} (hs : Inv n exec s) :
    Inv n exec (step n exec s .commit) := by
  by_cases hg : (s.halted.isNone = true ∧ s.committed < n ∧
      s.status s.committed = TStatus.executed ∧ s.valid s.committed = true)
  · simp only [step, if_pos hg]
    refine ⟨hs.validAgree, hs.ioExec, ?_, hs.ioNone, hs.ioSome⟩
    intro j hj
    have hj' : j < s.committed + 1 := hj
    by_cases hjc : j = s.committed
    · subst hjc
      exact ⟨hg.2.2.2, hg.2.2.1⟩
    · have hlt : j < s.committed := by omega
      exact hs.committedValid j hlt
  · simp only [step, if_neg hg]
    exact hs

theorem inv_step {K V E : Type} [DecidableEq K] [DecidableEq V] {n : Nat}
    {exec : Nat → (K → Option V) → Except E (List K × List (K × V))}
    (hdet : ∀ (i : Nat) (v₁ v₂ : K → Option V) (r : List K) (w : List (K × V)),
      exec i v₁ = .ok (r, w) → (∀ k ∈ r, v₁ k = v₂ k) → exec i v₂ = .ok (r, w))
    {s : St K V E} (hs : Inv n exec s) (a : Action) :
    Inv n exec (step n exec s a) := by
  cases a with
  | start i => exact inv_step_start hs i
  | finish i => exact inv_step_finish hdet hs i
  | validateOk i => exact inv_step_validateOk hs i
  | validateFail i => exact inv_step_validateFail hs i
  | reenqueue i => exact inv_step_reenqueue hs i
  | commit => exact inv_step_commit hs

theorem inv_foldl {K V E : Type} [DecidableEq K] [DecidableEq V] {n : Nat}
    {exec : Nat → (K → Option V) → Except E (List K × List (K × V))}
    (hdet : ∀ (i : Nat) (v₁ v₂ : K → Option V) (r : List K) (w : List (K × V)),
      exec i v₁ = .ok (r, w) → (∀ k ∈ r, v₁ k = v₂ k) → exec i v₂ = .ok (r, w)) :
    ∀ (acts : List Action) (s : St K V E), Inv n exec s →
      Inv n exec (acts.foldl (step n exec) s)
  | [], _, hs => hs
  | a :: acts, _, hs => inv_foldl hdet acts _ (inv_step hdet hs a)

theorem inv_run {K V E : Type} [DecidableEq K] [DecidableEq V] (n : Nat)
    (exec : Nat → (K → Option V) → Except E (List K × List (K × V)))
    (hdet : ∀ (i : Nat) (v₁ v₂ : K → Option V) (r : List K) (w : List (K × V)),
      exec i v₁ = .ok (r, w) → (∀ k ∈ r, v₁ k = v₂ k) → exec i v₂ = .ok (r, w))
    (acts : List Action) : Inv n exec (run n exec acts) :=
  inv_foldl hdet acts _ (inv_init n exec)

/-- The per-transaction write sets recorded in a state, as a sequential table
for the first `m` transactions. -/
def wlist {K V E : Type} (s : St K V E) (m : Nat) : List (List (K × V)) :=
  (List.range m).map (fun j => ((s.io j).map Prod.snd).getD [])

theorem wlist_get {K V E : Type} (s : St K V E) (m j : Nat) (hj : j < m) :
    (wlist s m).get? j = some (((s.io j).map Prod.snd).getD []) := by
  rw [wlist, List.get?_map, List.get?_range hj]
  rfl

theorem wlist_succ {K V E : Type} (s : St K V E) (m : Nat) :
    wlist s (m + 1) = wlist s m ++ [((s.io m).map Prod.snd).getD []] := by
  simp [wlist, List.range_succ]

theorem resolve_wlist {K V E : Type} [DecidableEq K] (s : St K V E) (m : Nat)
    (hio : ∀ j < m, s.io j ≠ none) :
    ∀ j, j ≤ m → ∀ k, resolveT (fun j' => (wlist s m).get? j') j k =
      resolveT (wtab s) j k := by
  intro j hj k
  refine resolveT_congr _ _ j ?_ k
  intro j' hj'
  have hjm : j' < m := by omega
  cases hioj : s.io j' with
  | none => exact absurd hioj (hio j' hjm)
  | some rw =>
    rw [wlist_get s m j' hjm]
    simp [wtab, hioj]

theorem seqTable_eq_wlist {K V E : Type} [DecidableEq K] [DecidableEq V] {n : Nat}
    {exec : Nat → (K → Option V) → Except E (List K × List (K × V))}
    {s : St K V E} (hInv : Inv n exec s)
    (hval : ∀ j, j < n → s.valid j = true)
    (hio : ∀ j, j < n → s.io j ≠ none) :
    ∀ m, m ≤ n → seqTable exec m = .ok (wlist s m) := by
  intro m
  induction m with
  | zero => intro _; rfl
  | succ m ih =>
    intro hm
    have hm' : m ≤ n := by omega
    have ht := ih hm'
    have hmn : m < n := by omega
    cases hiom : s.io m with
    | none => exact absurd hiom (hio m hmn)
    | some rw =>
      obtain ⟨r, w⟩ := rw
      have hagree := hInv.validAgree m r w (hval m hmn) hiom
      have hexec := hInv.ioExec m r w hiom (fun k => resolve s m k)
        (fun p hp => hagree p hp)
      have hviewfun : (fun k => resolveT (fun j => (wlist s m).get? j) m k) =
          (fun k => resolve s m k) := by
        funext k
        exact resolve_wlist s m (fun j hj => hio j (by omega)) m le_rfl k
      have hstep : seqTable exec (m + 1) =
          match exec m (fun k => resolveT (fun j => (wlist s m).get? j) m k) with
          | .ok (_, w) => .ok (wlist s m ++ [w])
          | .error e => .error e := by
        simp only [seqTable, ht]
      rw [hstep, hviewfun, hexec, wlist_succ, hiom]
      rfl

/-- C1 (serializability): for every interleaving of scheduler actions that
drives the whole block to commit, the final committed state (the per-key
value produced by the highest-index writer) equals the state produced by
sequential execution of the same transaction order.  `hdet` says the
execution capability is a function of its reads (spec section 6). -/
theorem parallel_serializable {K V E : Type} [DecidableEq K] [DecidableEq V]
    (n : Nat) (exec : Nat → (K → Option V) → Except E (List K × List (K × V)))
    (hdet : ∀ (i : Nat) (v₁ v₂ : K → Option V) (r : List K) (w : List (K × V)),
      exec i v₁ = .ok (r, w) → (∀ k ∈ r, v₁ k = v₂ k) → exec i v₂ = .ok (r, w))
    (acts : List Action)
    (hdone : (run n exec acts).committed = n) :
    ∃ t, seqTable exec n = .ok t ∧
      ∀ k, resolve (run n exec acts) n k = resolveT (fun j => t.get? j) n k := by
  have hInv := inv_run n exec hdet acts
  have hval : ∀ j, j < n → (run n exec acts).valid j = true := by
    intro j hj
    exact (hInv.committedValid j (by omega)).1
  have hio : ∀ j, j < n → (run n exec acts).io j ≠ none := by
    intro j hj
    exact hInv.ioSome j (hInv.committedValid j (by omega)).2
  refine ⟨wlist (run n exec acts) n,
    seqTable_eq_wlist hInv hval hio n le_rfl, ?_⟩
  intro k
  exact (resolve_wlist (run n exec acts) n hio n le_rfl k).symm

/-- A concrete execution capability for the witnesses: transaction `i` reads
nothing and writes the value `i` to key `0`. -/
def cexec : Nat → (Nat → Option Nat) → Except Unit (List Nat × List (Nat × Nat)) :=
  fun i _ => .ok ([], [(0, i)])

theorem parallel_serializable_witness :
    ∃ t, seqTable cexec 1 = .ok t ∧
      ∀ k, resolve (run 1 cexec [.start 0, .finish 0, .validateOk 0, .commit]) 1 k =
        resolveT (fun j => t.get? j) 1 k :=
  parallel_serializable 1 cexec (fun _ _ _ _ _ h _ => h)
    [.start 0, .finish 0, .validateOk 0, .commit] rfl

/-- The block-level outcome (spec sections 6-7): a halted run propagates its
fatal error to the caller; otherwise, once every transaction is committed,
the committed final state is returned as a read view. -/
def blockOutcome {K V E : Type} [DecidableEq K] (n : Nat) (s : St K V E) :
    Except E (Option (K → Option V)) :=
  match s.halted with
  | some e => .error e
  | none =>
    if s.committed = n then .ok (some (fun k => resolve s n k)) else .ok none

theorem step_halted {K V E : Type} [DecidableEq K] [DecidableEq V] {n : Nat}
    {exec : Nat → (K → Option V) → Except E (List K × List (K × V))}
    (s : St K V E) (e : E) (hh : s.halted = some e) (a : Action) :
    step n exec s a = s := by
  have hfalse : s.halted.isNone = false := by rw [hh]; rfl
  cases a <;> simp [step, hfalse]

theorem foldl_halted {K V E : Type} [DecidableEq K] [DecidableEq V] {n : Nat}
    {exec : Nat → (K → Option V) → Except E (List K × List (K × V))}
    (s : St K V E) (e : E) (hh : s.halted = some e) :
    ∀ more : List Action, more.foldl (step n exec) s = s
  | [] => rfl
  | a :: more => by
    rw [List.foldl_cons, step_halted s e hh a]
    exact foldl_halted s e hh more

/-- C2: when a fatal execution error halts the run, (a) every further
scheduler action is a no-op — the block execution is aborted and nothing is
retried, (b) the block outcome delivered to the caller is exactly that
error, and (c) the commit cursor never passed the fully validated contiguous
prefix: every committed transaction is validated and executed. -/
theorem fatal_error_aborts {K V E : Type} [DecidableEq K] [DecidableEq V]
    (n : Nat) (exec : Nat → (K → Option V) → Except E (List K × List (K × V)))
    (hdet : ∀ (i : Nat) (v₁ v₂ : K → Option V) (r : List K) (w : List (K × V)),
      exec i v₁ = .ok (r, w) → (∀ k ∈ r, v₁ k = v₂ k) → exec i v₂ = .ok (r, w))
    (acts more : List Action) (e : E)
    (hhalt : (run n exec acts).halted = some e) :
    run n exec (acts ++ more) = run n exec acts ∧
    blockOutcome n (run n exec (acts ++ more)) = .error e ∧
    (∀ i, i < (run n exec acts).committed → (run n exec acts).valid i = true ∧
      (run n exec acts).status i = .executed) := by
  have hfrozen : run n exec (acts ++ more) = run n exec acts := by
    rw [run, List.foldl_append]
    exact foldl_halted _ e hhalt more
  refine ⟨hfrozen, ?_, ?_⟩
  · rw [hfrozen]
    simp [blockOutcome, hhalt]
  · intro i hi
    exact (inv_run n exec hdet acts).committedValid i hi

/-- An execution capability that always reports a fatal error. -/
def cexecFatal : Nat → (Nat → Option Nat) → Except Unit (List Nat × List (Nat × Nat)) :=
  fun _ _ => .error ()

theorem fatal_error_aborts_witness :
    run 1 cexecFatal ([.start 0, .finish 0] ++ [.validateOk 0, .commit]) =
      run 1 cexecFatal [.start 0, .finish 0] ∧
    blockOutcome 1 (run 1 cexecFatal ([.start 0, .finish 0] ++ [.validateOk 0, .commit])) =
      .error () ∧
    (∀ i, i < (run 1 cexecFatal [.start 0, .finish 0]).committed →
      (run 1 cexecFatal [.start 0, .finish 0]).valid i = true ∧
      (run 1 cexecFatal [.start 0, .finish 0]).status i = .executed) :=
  fatal_error_aborts 1 cexecFatal (fun _ _ _ _ _ h _ => Except.noConfusion h)
    [.start 0, .finish 0] [.validateOk 0, .commit] () rfl

/-- The incarnations of transaction `i` currently marked `Executing`.  The
model keeps one status cell per transaction (as the scheduler does), so this
list never holds more than one incarnation. -/
def executingIncs {K V E : Type} (s : St K V E) (i : Nat) : List Nat :=
  match s.status i with
  | .executing => [s.inc i]
  | _ => []

/-- Ghost invariant for the incarnation claim: the attempt history of every
transaction is strictly increasing, bounded by the current incarnation, and
strictly below it whenever the transaction is eligible to start again. -/
structure AttemptInv {K V E : Type} (s : St K V E) : Prop where
  chain : ∀ i, List.Chain' (· < ·) (s.attempts i)
  bounded : ∀ i, ∀ a ∈ s.attempts i, a ≤ s.inc i
  strict : ∀ i, (s.status i = .pending ∨ s.status i = .aborting) →
    ∀ a ∈ s.attempts i, a < s.inc i

theorem attemptInv_init {K V E : Type} : AttemptInv (init K V E) := by
  refine ⟨?_, ?_, ?_⟩ <;> intro i <;> simp [init]

theorem attemptInv_step {K V E : Type} [DecidableEq K] [DecidableEq V] {n : Nat}
    {exec : Nat → (K → Option V) → Except E (List K × List (K × V))}
    {s : St K V E} (hs : AttemptInv s) (a : Action) :
    AttemptInv (step n exec s a) := by
  cases a with
  | start i =>
    by_cases hg : (s.halted.isNone = true ∧ s.committed ≤ i ∧ i < n ∧
        s.status i = TStatus.pending)
    · simp only [step, if_pos hg]
      refine ⟨?_, ?_, ?_⟩
      · intro j
        dsimp only
        by_cases hji : j = i
        · rw [if_pos hji]
          subst hji
          refine (hs.chain j).append (List.chain'_singleton _) ?_
          intro x hx y hy
          have hxm : x ∈ s.attempts j := List.mem_of_mem_getLast? hx
          have hym : y = s.inc j := by
            simp at hy
            exact hy.symm
          rw [hym]
          exact hs.strict j (Or.inl hg.2.2.2) x hxm
        · rw [if_neg hji]
          exact hs.chain j
      · intro j a ha
        dsimp only at ha ⊢
        by_cases hji : j = i
        · rw [if_pos hji] at ha
          subst hji
          rcases List.mem_append.mp ha with h1 | h1
          · exact hs.bounded j a h1
          · simp at h1
            omega
        · rw [if_neg hji] at ha
          exact hs.bounded j a ha
      · intro j hj a ha
        dsimp only at hj ha
        by_cases hji : j = i
        · rw [if_pos hji] at hj
          rcases hj with h1 | h1 <;> cases h1
        · rw [if_neg hji] at hj ha
          exact hs.strict j hj a ha
    · simp only [step, if_neg hg]
      exact hs
  | finish i =>
    by_cases hg : (s.halted.isNone = true ∧ s.committed ≤ i ∧
        s.status i = TStatus.executing)
    · simp only [step, if_pos hg]
      split
      · exact ⟨hs.chain, hs.bounded, hs.strict⟩
      · refine ⟨hs.chain, hs.bounded, ?_⟩
        intro j hj a ha
        dsimp only at hj ha
        by_cases hji : j = i
        · rw [if_pos hji] at hj
          rcases hj with h1 | h1 <;> cases h1
        · rw [if_neg hji] at hj
          exact hs.strict j hj a ha
    · simp only [step, if_neg hg]
      exact hs
  | validateOk i =>
    by_cases hg : (s.halted.isNone = true ∧ s.committed ≤ i ∧ i < n ∧
        s.status i = TStatus.executed)
    · simp only [step, if_pos hg]
      split
      · split
        · exact ⟨hs.chain, hs.bounded, hs.strict⟩
        · exact hs
      · exact hs
    · simp only [step, if_neg hg]
      exact hs
  | validateFail i =>
    by_cases hg : (s.halted.isNone = true ∧ s.committed ≤ i ∧
        s.status i = TStatus.executed)
    · simp only [step, if_pos hg]
      split
      · split
        · exact hs
        · refine ⟨hs.chain, ?_, ?_⟩
          · intro j a ha
            dsimp only at ha ⊢
            by_cases hji : j = i
            · rw [if_pos hji]
              have := hs.bounded j a ha
              subst hji
              omega
            · rw [if_neg hji]
              exact hs.bounded j a ha
          · intro j hj a ha
            dsimp only at hj ha ⊢
            by_cases hji : j = i
            · rw [if_pos hji]
              have := hs.bounded j a ha
              subst hji
              omega
            · rw [if_neg hji] at hj
              rw [if_neg hji]
              exact hs.strict j hj a ha
      · exact hs
    · simp only [step, if_neg hg]
      exact hs
  | reenqueue i =>
    by_cases hg : (s.halted.isNone = true ∧ s.status i = TStatus.aborting)
    · simp only [step, if_pos hg]
      refine ⟨hs.chain, hs.bounded, ?_⟩
      intro j hj a ha
      dsimp only at hj ha
      by_cases hji : j = i
      · subst hji
        exact hs.strict j (Or.inr hg.2) a ha
      · rw [if_neg hji] at hj
        exact hs.strict j hj a ha
    · simp only [step, if_neg hg]
      exact hs
  | commit =>
    by_cases hg : (s.halted.isNone = true ∧ s.committed < n ∧
        s.status s.committed = TStatus.executed ∧ s.valid s.committed = true)
    · simp only [step, if_pos hg]
      exact ⟨hs.chain, hs.bounded, hs.strict⟩
    · simp only [step, if_neg hg]
      exact hs

theorem attemptInv_foldl {K V E : Type} [DecidableEq K] [DecidableEq V] {n : Nat}
    {exec : Nat → (K → Option V) → Except E (List K × List (K × V))} :
    ∀ (acts : List Action) (s : St K V E), AttemptInv s →
      AttemptInv (acts.foldl (step n exec) s)
  | [], _, hs => hs
  | a :: acts, _, hs => attemptInv_foldl acts _ (attemptInv_step hs a)

/-- C3: over any interleaving, the incarnations whose execution was started
for a given transaction index form a strictly increasing sequence, and at any
point at most one incarnation of that index is marked `Executing`. -/
theorem incarnations_monotonic {K V E : Type} [DecidableEq K] [DecidableEq V]
    (n : Nat) (exec : Nat → (K → Option V) → Except E (List K × List (K × V)))
    (acts : List Action) (i : Nat) :
    List.Chain' (· < ·) ((run n exec acts).attempts i) ∧
    (executingIncs (run n exec acts) i).length ≤ 1 := by
  constructor
  · exact (attemptInv_foldl acts _ attemptInv_init).chain i
  · cases h : (run n exec acts).status i <;> simp [executingIncs, h]

/-- C5: when validation of transaction `i` fails (recorded reads no longer
agree with the store) and `finish_validation(i, success=false)` fires, the
scheduler increments `i`'s incarnation, discards `i`'s writes from the
Versioned Store, marks `i` `Aborting` and un-validates it, invalidates every
later transaction whose recorded reads touch one of the discarded keys
(cascading abort), and the subsequent re-enqueue makes `i` pending execution
again. -/
theorem finish_validation_failure {K V E : Type} [DecidableEq K] [DecidableEq V]
    (n : Nat) (exec : Nat → (K → Option V) → Except E (List K × List (K × V)))
    (s : St K V E) (i : Nat) (r : List (K × Option V)) (w : List (K × V))
    (hhalt : s.halted = none) (hc : s.committed ≤ i)
    (hst : s.status i = .executed) (hio : s.io i = some (r, w))
    (hfail : agreeReads s i r = false) :
    ((step n exec s (.validateFail i)).inc i = s.inc i + 1) ∧
    ((step n exec s (.validateFail i)).io i = none) ∧
    ((step n exec s (.validateFail i)).status i = .aborting) ∧
    ((step n exec s (.validateFail i)).valid i = false) ∧
    (∀ j, i < j → readsTouch (s.io j) w = true →
      (step n exec s (.validateFail i)).valid j = false) ∧
    ((step n exec (step n exec s (.validateFail i)) (.reenqueue i)).status i =
      .pending) := by
  have hg : (s.halted.isNone = true ∧ s.committed ≤ i ∧
      s.status i = TStatus.executed) := ⟨by rw [hhalt]; rfl, hc, hst⟩
  have hs' : step n exec s (.validateFail i) =
      { s with
        inc := fun j => if j = i then s.inc i + 1 else s.inc j,
        io := fun j => if j = i then none else s.io j,
        status := fun j => if j = i then .aborting else s.status j,
        valid := fun j =>
          if j = i then false
          else if i < j ∧ readsTouch (s.io j) w then false else s.valid j } := by
    simp only [step, if_pos hg, hio]
    rw [if_neg (by simp [hfail])]
  rw [hs']
  refine ⟨by simp, by simp, by simp, by simp, ?_, ?_⟩
  · intro j hj htouch
    have hji : j ≠ i := by omega
    simp [hji, hj, htouch]
  · have hg2 : ((({ s with
        inc := fun j => if j = i then s.inc i + 1 else s.inc j,
        io := fun j => if j = i then none else s.io j,
        status := fun j => if j = i then .aborting else s.status j,
        valid := fun j =>
          if j = i then false
          else if i < j ∧ readsTouch (s.io j) w then false
          else s.valid j } : St K V E).halted).isNone = true ∧
        ({ s with
          inc := fun j => if j = i then s.inc i + 1 else s.inc j,
          io := fun j => if j = i then none else s.io j,
          status := fun j => if j = i then .aborting else s.status j,
          valid := fun j =>
            if j = i then false
            else if i < j ∧ readsTouch (s.io j) w then false
            else s.valid j } : St K V E).status i = TStatus.aborting) := by
      constructor
      · rw [hhalt]
        rfl
      · simp
    simp only [step, if_pos hg2]
    simp [hhalt]

/-- A concrete state for the `finish_validation` witness: transaction 0 is
executed with a recorded read of key 0 observing `some 1`, which no longer
agrees with the (empty) store below index 0. -/
def failState : St Nat Nat Unit :=
  { inc := fun _ => 0,
    status := fun j => if j = 0 then .executed else .pending,
    io := fun j => if j = 0 then some ([(0, some 1)], [(0, 2)]) else none,
    valid := fun _ => false,
    committed := 0,
    halted := none,
    attempts := fun _ => [] }

theorem finish_validation_failure_witness :
    ((step 1 cexec failState (.validateFail 0)).inc 0 = failState.inc 0 + 1) ∧
    ((step 1 cexec failState (.validateFail 0)).io 0 = none) ∧
    ((step 1 cexec failState (.validateFail 0)).status 0 = .aborting) ∧
    ((step 1 cexec failState (.validateFail 0)).valid 0 = false) ∧
    (∀ j, 0 < j → readsTouch (failState.io j) [(0, 2)] = true →
      (step 1 cexec failState (.validateFail 0)).valid j = false) ∧
    ((step 1 cexec (step 1 cexec failState (.validateFail 0))
        (.reenqueue 0)).status 0 = .pending) :=
  finish_validation_failure 1 cexec failState 0 [(0, some 1)] [(0, 2)]
    rfl (Nat.le_refl 0) rfl rfl rfl

end BlockSTM

namespace TxnProviderDefault

/-- Modelled from the spec: the local/unsharded `TxnIndexProvider`
implementation (`txn_provider/default.rs`, not in the source snapshot; spec
section 4.4): it simply wraps the block's transaction vector. -/
structure DefaultTxnProvider (T : Type) where
  txns_vec : List T

/-- `num_txns`: the number of local transactions = the block length. -/
def num_txns {T : Type} (p : DefaultTxnProvider T) : Nat := p.txns_vec.length

/-- `end_txn_idx`: the sentinel index one past the last local transaction. -/
def end_txn_idx {T : Type} (p : DefaultTxnProvider T) : Nat := num_txns p

/-- `first_txn`: the first local transaction index. -/
def first_txn {T : Type} (_ : DefaultTxnProvider T) : Nat := 0

/-- `next_txn`: the next local transaction index. -/
def next_txn {T : Type} (_ : DefaultTxnProvider T) (i : Nat) : Nat := i + 1

/-- Iterate the local transaction list from `first_txn` via `next_txn`,
`fuel` steps (one per local transaction). -/
def txnsFrom {T : Type} (p : DefaultTxnProvider T) : Nat → Nat → List Nat
  | _, 0 => []
  | i, fuel + 1 => i :: txnsFrom p (next_txn p i) fuel

/-- `txns`: the global indices of all local transactions. -/
def txns {T : Type} (p : DefaultTxnProvider T) : List Nat :=
  txnsFrom p (first_txn p) (num_txns p)

/-- `txns_and_deps`: local transactions plus remote dependencies — an
unsharded block has no remote dependencies. -/
def txns_and_deps {T : Type} (p : DefaultTxnProvider T) : List Nat := txns p

/-- `is_local`: every transaction of an unsharded block is local. -/
def is_local {T : Type} (_ : DefaultTxnProvider T) (_ : Nat) : Bool := true

/-- `local_index`: global and local position coincide. -/
def local_index {T : Type} (_ : DefaultTxnProvider T) (i : Nat) : Nat := i

theorem txnsFrom_eq_range' {T : Type} (p : DefaultTxnProvider T) :
    ∀ (fuel i : Nat), txnsFrom p i fuel = List.range' i fuel := by
  intro fuel
  induction fuel with
  | zero => intro i; rfl
  | succ m ih =>
    intro i
    rw [txnsFrom, List.range'_succ, ih]
    rfl

/-- C6: for the local/unsharded Transaction Index Provider, `num_txns` is the
block length, `is_local` is true on every index, `txns_and_deps` coincides
with `txns`, and the iterated local list is exactly `0, 1, ..., num_txns-1`. -/
theorem default_provider_contract {T : Type} (p : DefaultTxnProvider T) :
    num_txns p = p.txns_vec.length ∧
    (∀ idx, is_local p idx = true) ∧
    txns_and_deps p = txns p ∧
    txns p = List.range (num_txns p) := by
  refine ⟨rfl, fun _ => rfl, rfl, ?_⟩
  rw [txns, txnsFrom_eq_range', List.range_eq_range']
  rfl

end TxnProviderDefault

namespace ShardingPlugin

/-- The messages received by `run_sharding_msg_loop` (spec sections 4.5, 6):
remote-committed writes, and the shutdown signal sent by
`shutdown_receiver`. -/
inductive ShardMsg (K V : Type)
  | remoteCommit (txn_idx : Nat) (key : K) (value : V)
  | shutdown

/-- The state touched by the sharding message loop: the Versioned Store, the
dependency registry of (blocked local txn, awaited key) pairs, and the
scheduler's re-execution queue. -/
structure ShardSt (K V : Type) where
  store : VersionedStore.Store K V
  blocked : List (Nat × K)
  readyQueue : List Nat

/-- Modelled from the spec: handling one remote-committed write
(`txn_provider/sharded.rs`, not in the source snapshot; spec section 4.5) —
insert the write into the Versioned Store as if locally executed (with the
synthetic incarnation 0), and wake every local transaction blocked on that
key by moving it from the dependency registry to the ready queue. -/
def applyRemoteCommit {K V : Type} [DecidableEq K] (i : Nat) (k : K) (v : V)
    (s : ShardSt K V) : ShardSt K V :=
  { store := (k, i, .value 0 v) :: s.store,
    blocked := s.blocked.filter (fun p => !(decide (p.2 = k))),
    readyQueue := s.readyQueue ++
      (s.blocked.filter (fun p => decide (p.2 = k))).map Prod.fst }

/-- Modelled from the spec: `run_sharding_msg_loop` — process
remote-committed writes in arrival order and stop as soon as the shutdown
signal is received. -/
def run_sharding_msg_loop {K V : Type} [DecidableEq K] :
    List (ShardMsg K V) → ShardSt K V → ShardSt K V
  | [], s => s
  | .shutdown :: _, s => s
  | .remoteCommit i k v :: rest, s =>
    run_sharding_msg_loop rest (applyRemoteCommit i k v s)

/-- C7: the sharding message loop (a) terminates the moment the shutdown
signal is received, ignoring anything after it, (b) handles each
remote-committed write by the single-step transformer, and (c) that step
inserts the write into the Versioned Store under a synthetic version and
moves every local transaction blocked on the written key to the ready queue,
removing it from the dependency registry. -/
theorem run_sharding_msg_loop_spec {K V : Type} [DecidableEq K] :
    (∀ (rest : List (ShardMsg K V)) (s : ShardSt K V),
      run_sharding_msg_loop (.shutdown :: rest) s = s) ∧
    (∀ (i : Nat) (k : K) (v : V) (rest : List (ShardMsg K V)) (s : ShardSt K V),
      run_sharding_msg_loop (.remoteCommit i k v :: rest) s =
        run_sharding_msg_loop rest (applyRemoteCommit i k v s)) ∧
    (∀ (i : Nat) (k : K) (v : V) (s : ShardSt K V),
      (k, i, VersionedStore.EntryCell.value 0 v) ∈ (applyRemoteCommit i k v s).store ∧
      ∀ j, (j, k) ∈ s.blocked →
        j ∈ (applyRemoteCommit i k v s).readyQueue ∧
        (j, k) ∉ (applyRemoteCommit i k v s).blocked) := by
  refine ⟨fun _ _ => rfl, fun _ _ _ _ _ => rfl, ?_⟩
  intro i k v s
  refine ⟨List.mem_cons_self _ _, ?_⟩
  intro j hj
  constructor
  · show j ∈ s.readyQueue ++
      (s.blocked.filter (fun p => decide (p.2 = k))).map Prod.fst
    apply List.mem_append_right
    exact List.mem_map.mpr ⟨(j, k), List.mem_filter.mpr ⟨hj, by simp⟩, rfl⟩
  · intro hmem
    have hmem' : (j, k) ∈ s.blocked.filter (fun p => !(decide (p.2 = k))) := hmem
    rw [List.mem_filter] at hmem'
    simp at hmem'

theorem run_sharding_msg_loop_spec_witness :
    (5 : Nat) ∈
      (applyRemoteCommit 1 3 9 (⟨[], [(5, 3)], []⟩ : ShardSt Nat Nat)).readyQueue ∧
    ((5, 3) : Nat × Nat) ∉
      (applyRemoteCommit 1 3 9 (⟨[], [(5, 3)], []⟩ : ShardSt Nat Nat)).blocked :=
  (run_sharding_msg_loop_spec.2.2 1 3 9 ⟨[], [(5, 3)], []⟩).2 5 (by decide)

end ShardingPlugin
